import Mathlib

/-!
Verification of the pylevy stable-distribution package (`levy/__init__.py`).

The numeric code (numpy float64 arrays) is modelled over the reals.  Batches
(numpy arrays) are modelled as `List ℝ`; the three-dimensional lookup grids
(shape (200, 76, 101)) are modelled as functions `(Fin 3 → ℕ) → ℝ`, since the
persisted `.npz` data files are opaque read-only inputs to the core.  Python
exceptions (`TypeError` from arithmetic on `None`, `IndexError` from table
lookup) are modelled by `Option`: `none` means the call raises.
-/

open Classical

/-- Classical boolean reflection of a proposition; models a numpy boolean
mask entry (the comparisons in the source are on float64 values). -/
noncomputable def pbool (p : Prop) : Bool := decide p

theorem pbool_iff (p : Prop) : pbool p = true ↔ p := by
  simp [pbool]

theorem pbool_eq_true {p : Prop} (h : p) : pbool p = true := (pbool_iff p).2 h

theorem pbool_eq_false {p : Prop} (h : ¬ p) : pbool p = false := by
  cases hb : pbool p
  · rfl
  · exact absurd ((pbool_iff p).1 hb) h

/-! ## Interpolator (`_interpolate`, source lines 101-135)

The source maps each coordinate to continuous grid-index space, floors it,
computes four Catmull-Rom weights per axis from the fractional offset, and sums
over the `4^dims` taps; per axis the tap index is `floor + (n - 1)` clamped to
`[0, grid_shape[j] - 1]` (`np.maximum(0, np.minimum(grid_shape[j]-1, ...))`).
The source accumulates a row-major ravel offset and reads the ravelled grid;
since every per-axis index is clamped in range, that is exactly the grid value
at the clamped multi-index, which is how `interpolate` reads `vals` below.
The loop variable `i` enumerates the taps by base-4 digits `(i >> (j*2)) % 4`,
i.e. exactly the functions `tap : Fin d → Fin 4`. -/

/-- `(value - lower) * ((gridSize - 1) / (upper - lower))`: continuous
grid-index-space coordinate of a query point along axis `j`. -/
noncomputable def gridCoord {d : ℕ} (shape : Fin d → ℕ) (lower upper : Fin d → ℝ)
    (pt : Fin d → ℝ) (j : Fin d) : ℝ :=
  (pt j - lower j) * (((shape j : ℝ) - 1) / (upper j - lower j))

/-- `floors = np.floor(points).astype('int')`. -/
noncomputable def floorIdx {d : ℕ} (shape : Fin d → ℕ) (lower upper : Fin d → ℝ)
    (pt : Fin d → ℝ) (j : Fin d) : ℤ :=
  ⌊gridCoord shape lower upper pt j⌋

/-- `offsets = points - floors`: the fractional part of the coordinate. -/
noncomputable def fracOff {d : ℕ} (shape : Fin d → ℕ) (lower upper : Fin d → ℝ)
    (pt : Fin d → ℝ) (j : Fin d) : ℝ :=
  gridCoord shape lower upper pt j - (floorIdx shape lower upper pt j : ℝ)

/-- The four Catmull-Rom tap weights (`weighters` in the source), as cubic
polynomials of the fractional offset `t`. -/
noncomputable def crWeight (n : Fin 4) (t : ℝ) : ℝ :=
  if n.val = 0 then -0.5 * t ^ 3 + t ^ 2 - 0.5 * t
  else if n.val = 1 then 1.5 * t ^ 3 - 2.5 * t ^ 2 + 1
  else if n.val = 2 then -1.5 * t ^ 3 + 2 * t ^ 2 + 0.5 * t
  else 0.5 * t ^ 3 - 0.5 * t ^ 2

/-- `np.maximum(0, np.minimum(grid_shape[j] - 1, k))`, as a natural number. -/
def clampIdx (sz : ℕ) (k : ℤ) : ℕ := (max 0 (min ((sz : ℤ) - 1) k)).toNat

/-- Per-axis grid index of tap `tap` at the query point: the floor index plus
`(n - 1)`, clamped into `[0, shape j - 1]`. -/
noncomputable def tapIdx {d : ℕ} (shape : Fin d → ℕ) (lower upper : Fin d → ℝ)
    (pt : Fin d → ℝ) (tap : Fin d → Fin 4) (j : Fin d) : ℕ :=
  clampIdx (shape j) (floorIdx shape lower upper pt j + ((tap j : ℕ) : ℤ) - 1)

/-- Multi-dimensional Catmull-Rom cubic interpolation of one query point
(`_interpolate` in the source, which vectorizes this over the batch). -/
noncomputable def interpolate {d : ℕ} (shape : Fin d → ℕ) (vals : (Fin d → ℕ) → ℝ)
    (lower upper : Fin d → ℝ) (pt : Fin d → ℝ) : ℝ :=
  ∑ tap : Fin d → Fin 4,
    (∏ j, crWeight (tap j) (fracOff shape lower upper pt j)) *
      vals (tapIdx shape lower upper pt tap)

/-! ## Grid constants (source lines 46-48) -/

/-- `size = (200, 76, 101)`. -/
def shape3 : Fin 3 → ℕ := ![200, 76, 101]

/-- `_lower = [-pi/2*0.999, 0.5, -1.0]`. -/
noncomputable def lower3 : Fin 3 → ℝ := ![-(Real.pi / 2) * 0.999, 0.5, -1]

/-- `_upper = [pi/2*0.999, 2.0, 1.0]`. -/
noncomputable def upper3 : Fin 3 → ℝ := ![Real.pi / 2 * 0.999, 2, 1]

/-! ## Parametrization shift (source lines 170-172 and 289-300) -/

/-- `_phi(alpha, beta) = beta * tan(pi * alpha / 2)`. -/
noncomputable def _phi (alpha beta : ℝ) : ℝ :=
  beta * Real.tan (Real.pi * alpha / 2.0)

/-- `change_par`: convert the location parameter between Nolan parametrizations.
The Python function falls through (returns `None`) for any other combination of
`par_input`/`par_output`, modelled by `none`. -/
noncomputable def change_par (alpha beta mu sigma : ℝ) (par_input par_output : ℤ) :
    Option ℝ :=
  if par_input = par_output then some mu
  else if par_input = 0 ∧ par_output = 1 then some (mu - sigma * _phi alpha beta)
  else if par_input = 1 ∧ par_output = 0 then some (mu + sigma * _phi alpha beta)
  else none

/-! ## Tail approximation (`_approximate`, source lines 215-223) -/

/-- Closed-form asymptotic tail of the stable density/CDF.  The numpy code
scales entries at `x > 0` by `1 + beta` and the rest by `1 - beta`, then
returns `1 - values` in CDF mode and `values * alpha` in density mode. -/
noncomputable def _approximate (x alpha beta : ℝ) (cdf : Bool) : ℝ :=
  let values := Real.sin (Real.pi * alpha / 2.0) * Real.Gamma alpha / Real.pi *
      |x| ^ (-alpha - 1.0) * (if 0 < x then 1.0 + beta else 1.0 - beta)
  if cdf then 1.0 - values else values * alpha

/-! ## Claim C2: the tail formula -/

/-- C2: for alpha in (0.5, 2], beta in [-1, 1] and nonzero x, the tail
approximation is `sin(pi a/2) Gamma(a)/pi |x|^(-a-1) (1+b) a` for `x > 0`,
the same with factor `(1-b)` for `x < 0`, and in CDF mode it is `1` minus the
same asymmetrically scaled expression without the final `alpha` factor. -/
theorem approximate_tail_formula (alpha beta x : ℝ)
    (ha1 : 1 / 2 < alpha) (ha2 : alpha ≤ 2) (hb1 : -1 ≤ beta) (hb2 : beta ≤ 1)
    (hx : x ≠ 0) :
    (0 < x → _approximate x alpha beta false =
      Real.sin (Real.pi * alpha / 2) * Real.Gamma alpha / Real.pi *
        |x| ^ (-alpha - 1) * (1 + beta) * alpha) ∧
    (x < 0 → _approximate x alpha beta false =
      Real.sin (Real.pi * alpha / 2) * Real.Gamma alpha / Real.pi *
        |x| ^ (-alpha - 1) * (1 - beta) * alpha) ∧
    (0 < x → _approximate x alpha beta true =
      1 - Real.sin (Real.pi * alpha / 2) * Real.Gamma alpha / Real.pi *
        |x| ^ (-alpha - 1) * (1 + beta)) ∧
    (x < 0 → _approximate x alpha beta true =
      1 - Real.sin (Real.pi * alpha / 2) * Real.Gamma alpha / Real.pi *
        |x| ^ (-alpha - 1) * (1 - beta)) := by
  refine ⟨fun hpos => ?_, fun hneg => ?_, fun hpos => ?_, fun hneg => ?_⟩ <;>
    simp only [_approximate] <;>
    [rw [if_pos hpos]; rw [if_neg (not_lt.2 hneg.le)];
     rw [if_pos hpos]; rw [if_neg (not_lt.2 hneg.le)]] <;>
    norm_num

/-- Witness for C2 at alpha = 3/2, beta = 0, x = 1. -/
theorem approximate_tail_formula_witness :
    ((1 : ℝ) / 2 < 3 / 2 ∧ (3 / 2 : ℝ) ≤ 2 ∧ (-1 : ℝ) ≤ 0 ∧ (0 : ℝ) ≤ 1 ∧ (1 : ℝ) ≠ 0) ∧
    _approximate 1 (3 / 2) 0 false =
      Real.sin (Real.pi * (3 / 2) / 2) * Real.Gamma (3 / 2) / Real.pi *
        |(1 : ℝ)| ^ (-(3 / 2 : ℝ) - 1) * (1 + 0) * (3 / 2) := by
  refine ⟨by norm_num, ?_⟩
  exact (approximate_tail_formula (3 / 2) 0 1 (by norm_num) (by norm_num)
    (by norm_num) (by norm_num) (by norm_num)).1 (by norm_num)

/-! ## Claim C7: parametrization round trip -/

/-- C7: converting the location from parametrization 0 to 1 and back returns
the original `mu` (the conversions `mu - sigma*phi` and `mu + sigma*phi` are
mutually inverse), and converting with equal input and output parametrizations
returns `mu` unchanged.  This holds for every real `alpha`, `beta`, `mu`,
`sigma`, in particular on the claimed domain alpha in (0.5, 2], beta in [-1, 1]. -/
theorem change_par_roundtrip (alpha beta mu sigma : ℝ) :
    ((change_par alpha beta mu sigma 0 1).bind
        (fun m1 => change_par alpha beta m1 sigma 1 0)) = some mu ∧
    (∀ p : ℤ, change_par alpha beta mu sigma p p = some mu) := by
  constructor
  · simp only [change_par]
    norm_num
  · intro p
    simp [change_par]

/-! ## Claim C4: edge clamping keeps every grid access in bounds -/

theorem clampIdx_lt (sz : ℕ) (k : ℤ) (h : 0 < sz) : clampIdx sz k < sz := by
  simp only [clampIdx]
  omega

/-- C4: for every grid and every query point (in or out of the per-axis
bounds), each of the `4^D` tap indices is the floor index plus the tap offset
minus one, clamped per axis into `[0, axisSize-1]`; hence every grid access is
in bounds, negative raw indices read row `0` and overlarge raw indices read row
`axisSize - 1` (clamping, never wrapping), and the interpolated value depends
only on in-bounds grid entries. -/
theorem interpolate_clamped {d : ℕ} (shape : Fin d → ℕ) (lower upper : Fin d → ℝ)
    (pt : Fin d → ℝ) (hs : ∀ j, 0 < shape j) :
    (∀ (tap : Fin d → Fin 4) (j : Fin d),
      tapIdx shape lower upper pt tap j < shape j ∧
      (floorIdx shape lower upper pt j + ((tap j : ℕ) : ℤ) - 1 < 0 →
        tapIdx shape lower upper pt tap j = 0) ∧
      ((shape j : ℤ) ≤ floorIdx shape lower upper pt j + ((tap j : ℕ) : ℤ) - 1 →
        tapIdx shape lower upper pt tap j = shape j - 1) ∧
      (0 ≤ floorIdx shape lower upper pt j + ((tap j : ℕ) : ℤ) - 1 →
        floorIdx shape lower upper pt j + ((tap j : ℕ) : ℤ) - 1 < (shape j : ℤ) →
        (tapIdx shape lower upper pt tap j : ℤ) =
          floorIdx shape lower upper pt j + ((tap j : ℕ) : ℤ) - 1)) ∧
    (∀ vals vals' : (Fin d → ℕ) → ℝ,
      (∀ ix : Fin d → ℕ, (∀ j, ix j < shape j) → vals ix = vals' ix) →
      interpolate shape vals lower upper pt = interpolate shape vals' lower upper pt) := by
  have htap : ∀ (tap : Fin d → Fin 4) (j : Fin d),
      tapIdx shape lower upper pt tap j < shape j := by
    intro tap j
    exact clampIdx_lt _ _ (hs j)
  refine ⟨fun tap j => ⟨htap tap j, ?_, ?_, ?_⟩, fun vals vals' hagree => ?_⟩
  · intro hneg
    have := hs j
    simp only [tapIdx, clampIdx]
    omega
  · intro hbig
    have := hs j
    simp only [tapIdx, clampIdx]
    omega
  · intro h0 h1
    simp only [tapIdx, clampIdx]
    omega
  · unfold interpolate
    refine Finset.sum_congr rfl fun tap _ => ?_
    rw [hagree _ fun j => htap tap j]

/-- Witness for C4 on a one-dimensional grid of size 3 with a query far
outside the coordinate bounds: the first tap of the first axis stays in
bounds. -/
theorem interpolate_clamped_witness :
    0 < 3 ∧
    tapIdx (fun _ : Fin 1 => 3) (fun _ => 0) (fun _ => 2) (fun _ => 100)
      (fun _ => 0) 0 < 3 := by
  refine ⟨by norm_num, ?_⟩
  have h := (interpolate_clamped (fun _ : Fin 1 => 3) (fun _ => 0) (fun _ => 2)
    (fun _ => 100) (fun _ => by norm_num)).1 (fun _ => 0) 0
  exact h.1

/-! ## Claim C5: exact interpolation at grid nodes -/

theorem crWeight_at_zero (n : Fin 4) :
    crWeight n 0 = if n.val = 1 then 1 else 0 := by
  rcases n with ⟨nv, hn⟩
  interval_cases nv <;> simp [crWeight] <;> norm_num

/-- C5: evaluating the Catmull-Rom interpolator at the exact coordinate of a
grid node (where every per-axis fractional offset is 0, so the tap weights are
0, 1, 0, 0) returns the stored grid value at that node. -/
theorem interpolate_at_node {d : ℕ} (shape : Fin d → ℕ) (vals : (Fin d → ℕ) → ℝ)
    (lower upper : Fin d → ℝ) (k : Fin d → ℕ)
    (hs : ∀ j, 2 ≤ shape j) (hlu : ∀ j, lower j < upper j) (hk : ∀ j, k j < shape j) :
    interpolate shape vals lower upper
      (fun j => lower j + (k j : ℝ) * ((upper j - lower j) / ((shape j : ℝ) - 1)))
      = vals k := by
  set pt : Fin d → ℝ :=
    fun j => lower j + (k j : ℝ) * ((upper j - lower j) / ((shape j : ℝ) - 1)) with hpt
  have hcoord : ∀ j, gridCoord shape lower upper pt j = (k j : ℝ) := by
    intro j
    have hne1 : upper j - lower j ≠ 0 := sub_ne_zero.2 (hlu j).ne'
    have hne2 : ((shape j : ℝ) - 1) ≠ 0 := by
      have : (2 : ℝ) ≤ (shape j : ℝ) := by exact_mod_cast hs j
      nlinarith
    simp only [gridCoord, hpt]
    field_simp
    ring
  have hfloor : ∀ j, floorIdx shape lower upper pt j = (k j : ℤ) := by
    intro j
    simp only [floorIdx, hcoord j, Int.floor_natCast]
  have hfrac : ∀ j, fracOff shape lower upper pt j = 0 := by
    intro j
    simp only [fracOff, hcoord j, hfloor j, Int.cast_natCast, sub_self]
  unfold interpolate
  rw [Fintype.sum_eq_single (fun _ => (1 : Fin 4))]
  · have hw : (∏ j, crWeight ((fun _ => (1 : Fin 4)) j) (fracOff shape lower upper pt j)) = 1 := by
      refine Finset.prod_eq_one fun j _ => ?_
      rw [hfrac j, crWeight_at_zero]
      norm_num
    have hidx : tapIdx shape lower upper pt (fun _ => (1 : Fin 4)) = k := by
      funext j
      have hkj := hk j
      simp only [tapIdx, hfloor j, clampIdx]
      omega
    rw [hw, hidx, one_mul]
  · intro tap htap
    have hj : ∃ j, tap j ≠ 1 := by
      by_contra hall
      push_neg at hall
      exact htap (funext hall)
    obtain ⟨j, hj⟩ := hj
    have hw0 : crWeight (tap j) (fracOff shape lower upper pt j) = 0 := by
      rw [hfrac j, crWeight_at_zero, if_neg]
      exact fun hv => hj (Fin.ext hv)
    rw [Finset.prod_eq_zero (Finset.mem_univ j) hw0, zero_mul]

/-- Witness for C5: a one-dimensional grid of size 3 over [0, 2] storing the
index as value; interpolating at node 1 (coordinate 1) returns 1. -/
theorem interpolate_at_node_witness :
    interpolate (fun _ : Fin 1 => 3) (fun v => ((v 0 : ℕ) : ℝ)) (fun _ => 0) (fun _ => 2)
      (fun j => (fun _ : Fin 1 => (0 : ℝ)) j +
        (((fun _ : Fin 1 => 1) j : ℕ) : ℝ) *
          (((fun _ : Fin 1 => (2 : ℝ)) j - (fun _ : Fin 1 => (0 : ℝ)) j) /
            (((fun _ : Fin 1 => 3) j : ℝ) - 1))) = 1 := by
  have h := interpolate_at_node (fun _ : Fin 1 => 3) (fun v => ((v 0 : ℕ) : ℝ))
    (fun _ => 0) (fun _ => 2) (fun _ => 1)
    (fun _ => by norm_num) (fun _ => by norm_num) (fun _ => by norm_num)
  simpa using h

/-! ## DensityEvaluator (`levy`, source lines 303-348)

The breakpoint lookup computes `int(...)` indices (Python `int()` truncates
toward zero) and reads `limits[alpha_index, beta_index]`.  Python sequence
indexing accepts negative indices down to `-len` (counting from the end) and
raises `IndexError` otherwise; the source catches that error only to print the
offending values and re-raises it.  `pyIndex2` models that exactly. -/

/-- Python `int()` applied to a float: truncation toward zero. -/
noncomputable def pyInt (r : ℝ) : ℤ := if 0 ≤ r then ⌊r⌋ else ⌈r⌉

/-- Python 2-d array indexing `tbl[i, j]` on a `rows x cols` array: `none`
models the raised `IndexError`, negative in-range indices count from the end. -/
def pyIndex2 (tbl : ℕ → ℕ → ℝ) (rows cols : ℕ) (i j : ℤ) : Option ℝ :=
  if -(rows : ℤ) ≤ i ∧ i < rows ∧ -(cols : ℤ) ≤ j ∧ j < cols then
    some (tbl (if i < 0 then i + rows else i).toNat (if j < 0 then j + cols else j).toNat)
  else none

/-- `alpha_index = int((alpha - _lower[1]) / (_upper[1] - _lower[1]) * (size[1] - 1))`. -/
noncomputable def alpha_index (alpha : ℝ) : ℤ :=
  pyInt ((alpha - 0.5) / (2.0 - 0.5) * (76 - 1))

/-- `beta_index = int((beta - _lower[2]) / (_upper[2] - _lower[2]) * (size[2] - 1))`. -/
noncomputable def beta_index (beta : ℝ) : ℤ :=
  pyInt ((beta - (-1.0)) / (1.0 - (-1.0)) * (101 - 1))

/-- The breakpoint-table lookup performed by `levy` (source lines 324-331):
`limits[alpha_index, beta_index]` guarded only by `try/except IndexError`
(which prints the offending values and re-raises). -/
noncomputable def breakpoint_lookup (limits : ℕ → ℕ → ℝ) (alpha beta : ℝ) : Option ℝ :=
  pyIndex2 limits 76 101 (alpha_index alpha) (beta_index beta)

/-- Reassembly of `res[mask] = interpolated; res[~mask] = approximated`:
walk the boolean mask in order, consuming the masked values from the first
list and the unmasked values from the second. -/
def unmask : List Bool → List ℝ → List ℝ → List ℝ
  | [], _, _ => []
  | true :: ms, a :: as, bs => a :: unmask ms as bs
  | true :: _, [], _ => []
  | false :: ms, as, b :: bs => b :: unmask ms as bs
  | false :: _, _, [] => []

theorem unmask_spec (p : ℝ → Prop) (f g : ℝ → ℝ) (xs : List ℝ) :
    unmask (xs.map fun t => pbool (p t))
      ((xs.filter fun t => pbool (p t)).map f)
      ((xs.filter fun t => !(pbool (p t))).map g)
      = xs.map fun t => if p t then f t else g t := by
  induction xs with
  | nil => rfl
  | cons a l ih =>
    by_cases h : p a
    · have hb : pbool (p a) = true := pbool_eq_true h
      simp only [List.map_cons, List.filter_cons, hb, Bool.not_true, if_pos h,
        Bool.false_eq_true, ite_true, ite_false, unmask]
      exact congrArg _ ih
    · have hb : pbool (p a) = false := pbool_eq_false h
      simp only [List.map_cons, List.filter_cons, hb, Bool.not_false, if_neg h,
        Bool.false_eq_true, ite_true, ite_false, unmask]
      exact congrArg _ ih

/-- `levy(x, alpha, beta, mu, sigma, cdf, par)` on a batch of points.
Follows the source: convert `mu` to the parametrization-0 location (crash,
i.e. `none`, if `change_par` returned `None`), look up the breakpoint
(`none` on `IndexError`), standardize, split by `|xr| < l`, interpolate the
near points at `(arctan xr, alpha, beta)` against the chosen grid, apply the
tail approximation to the far points, recombine in order, and divide by
`sigma` for density queries. -/
noncomputable def levy (pdfG cdfG : (Fin 3 → ℕ) → ℝ) (limits : ℕ → ℕ → ℝ)
    (x : List ℝ) (alpha beta mu sigma : ℝ) (cdf : Bool) (par : ℤ) :
    Option (List ℝ) :=
  (change_par alpha beta mu sigma par 0).bind fun loc =>
  (breakpoint_lookup limits alpha beta).map fun l =>
  let what := if cdf then cdfG else pdfG
  let xr := x.map fun t => (t - loc) / sigma
  let near := fun t => pbool (|t| < l)
  let interpolated := (xr.filter near).map fun t =>
    interpolate shape3 what lower3 upper3 ![Real.arctan t, alpha, beta]
  let approximated := (xr.filter fun t => !(near t)).map fun t =>
    _approximate t alpha beta cdf
  let res := unmask (xr.map near) interpolated approximated
  if cdf then res else res.map fun v => v / sigma

/-- `neglog_levy` (source lines 351-357): elementwise
`-log(maximum(1e-100, levy(x, alpha, beta, mu, sigma, par=par)))`. -/
noncomputable def neglog_levy (pdfG cdfG : (Fin 3 → ℕ) → ℝ) (limits : ℕ → ℕ → ℝ)
    (x : List ℝ) (alpha beta mu sigma : ℝ) (par : ℤ) : Option (List ℝ) :=
  (levy pdfG cdfG limits x alpha beta mu sigma false par).map
    (List.map fun v => -Real.log (max 1e-100 v))

/-! ## Claim C1: levy partitions, evaluates and recombines pointwise -/

theorem breakpoint_lookup_domain (limits : ℕ → ℕ → ℝ) (alpha beta : ℝ)
    (ha1 : 1 / 2 < alpha) (ha2 : alpha ≤ 2) (hb1 : -1 ≤ beta) (hb2 : beta ≤ 1) :
    breakpoint_lookup limits alpha beta =
      some (limits (alpha_index alpha).toNat (beta_index beta).toNat) := by
  have hae : (alpha - 0.5) / (2.0 - 0.5) * (76 - 1) = (alpha - 0.5) * 50 := by
    norm_num
    ring
  have hbe : (beta - (-1.0)) / (1.0 - (-1.0)) * (101 - 1) = (beta + 1) * 50 := by
    norm_num
    ring
  have h0a : (0 : ℝ) ≤ (alpha - 0.5) * 50 := by nlinarith
  have h75 : (alpha - 0.5) * 50 ≤ 75 := by nlinarith
  have h0b : (0 : ℝ) ≤ (beta + 1) * 50 := by nlinarith
  have h100 : (beta + 1) * 50 ≤ 100 := by nlinarith
  have hpa : alpha_index alpha = ⌊(alpha - 0.5) * 50⌋ := by
    rw [alpha_index, hae, pyInt, if_pos h0a]
  have hpb : beta_index beta = ⌊(beta + 1) * 50⌋ := by
    rw [beta_index, hbe, pyInt, if_pos h0b]
  have hai0 : 0 ≤ ⌊(alpha - 0.5) * 50⌋ := by
    rw [Int.le_floor]
    exact_mod_cast h0a
  have hai76 : ⌊(alpha - 0.5) * 50⌋ < 76 := by
    have h1 : ⌊(alpha - 0.5) * 50⌋ ≤ ⌊(75 : ℝ)⌋ := Int.floor_mono h75
    have h2 : ⌊(75 : ℝ)⌋ = 75 := by norm_num
    omega
  have hbi0 : 0 ≤ ⌊(beta + 1) * 50⌋ := by
    rw [Int.le_floor]
    exact_mod_cast h0b
  have hbi101 : ⌊(beta + 1) * 50⌋ < 101 := by
    have h1 : ⌊(beta + 1) * 50⌋ ≤ ⌊(100 : ℝ)⌋ := Int.floor_mono h100
    have h2 : ⌊(100 : ℝ)⌋ = 100 := by norm_num
    omega
  rw [breakpoint_lookup, hpa, hpb, pyIndex2,
    if_pos ⟨by omega, by omega, by omega, by omega⟩,
    if_neg (not_lt.2 hai0), if_neg (not_lt.2 hbi0)]

/-- C1: for a call `levy(x, alpha, beta, mu, sigma, cdf, par)` with valid
parameters, `mu` is converted to the parametrization-0 location `loc`, each
point is standardized to `xr = (x - loc)/sigma`; points with
`|xr| < breakpoint(alpha, beta)` are interpolated from the density or CDF grid
at `(arctan xr, alpha, beta)` (beta signed), points with `|xr| >= breakpoint`
get the closed-form tail approximation; the per-point results appear in the
original order (the result is a `map` over the input batch), and for density
queries the combined result is divided by `sigma`. -/
theorem levy_partition (pdfG cdfG : (Fin 3 → ℕ) → ℝ) (limits : ℕ → ℕ → ℝ)
    (x : List ℝ) (alpha beta mu sigma : ℝ) (cdf : Bool) (par : ℤ)
    (hpar : par = 0 ∨ par = 1)
    (ha1 : 1 / 2 < alpha) (ha2 : alpha ≤ 2) (hb1 : -1 ≤ beta) (hb2 : beta ≤ 1) :
    levy pdfG cdfG limits x alpha beta mu sigma cdf par =
      some (x.map fun t =>
        let loc : ℝ := if par = 1 then mu + sigma * _phi alpha beta else mu
        let l : ℝ := limits (alpha_index alpha).toNat (beta_index beta).toNat
        let xr : ℝ := (t - loc) / sigma
        let v : ℝ := if |xr| < l then
            interpolate shape3 (if cdf then cdfG else pdfG) lower3 upper3
              ![Real.arctan xr, alpha, beta]
          else _approximate xr alpha beta cdf
        if cdf then v else v / sigma) := by
  have hloc : change_par alpha beta mu sigma par 0 =
      some (if par = 1 then mu + sigma * _phi alpha beta else mu) := by
    rcases hpar with h | h <;> subst h <;> simp [change_par]
  simp only [levy, hloc, breakpoint_lookup_domain limits alpha beta ha1 ha2 hb1 hb2,
    Option.some_bind, Option.map_some']
  congr 1
  rw [unmask_spec (fun t => |t| <
      limits (alpha_index alpha).toNat (beta_index beta).toNat)]
  cases cdf
  · rw [List.map_map, List.map_map]
    rfl
  · rw [List.map_map]
    rfl

/-- Witness for C1: one query point 0 with alpha = 3/2, beta = 0, mu = 0,
sigma = 1, density mode, parametrization 0, constant grids. -/
theorem levy_partition_witness :
    (((0 : ℤ) = 0 ∨ (0 : ℤ) = 1) ∧ (1 : ℝ) / 2 < 3 / 2 ∧ (3 / 2 : ℝ) ≤ 2 ∧
      (-1 : ℝ) ≤ 0 ∧ (0 : ℝ) ≤ 1) ∧
    levy (fun _ => 0) (fun _ => 0) (fun _ _ => 1) [0] (3 / 2) 0 0 1 false 0 =
      some ([0].map fun t =>
        let loc : ℝ := if (0 : ℤ) = 1 then 0 + 1 * _phi (3 / 2) 0 else 0
        let l : ℝ := (fun _ _ => (1 : ℝ)) (alpha_index (3 / 2)).toNat (beta_index 0).toNat
        let xr : ℝ := (t - loc) / 1
        let v : ℝ := if |xr| < l then
            interpolate shape3 (if false then (fun _ => 0) else (fun _ => 0)) lower3 upper3
              ![Real.arctan xr, 3 / 2, 0]
          else _approximate xr (3 / 2) 0 false
        if false then v else v / 1) := by
  exact ⟨⟨Or.inl rfl, by norm_num, by norm_num, by norm_num, by norm_num⟩,
    levy_partition (fun _ => 0) (fun _ => 0) (fun _ _ => 1) [0] (3 / 2) 0 0 1 false 0
      (Or.inl rfl) (by norm_num) (by norm_num) (by norm_num) (by norm_num)⟩

/-! ## Claim C3: no explicit domain validation before the table lookup

The source performs no alpha/beta validation: it computes the indices and
indexes the table directly, with only a `try/except IndexError` that prints
and re-raises.  For alpha below the supported range the index is negative but
often within `[-76, 0)`, and Python then silently reads from the end of the
table instead of raising anything. -/

theorem alpha_index_two_fifths : alpha_index (2 / 5) = -5 := by
  have h : ((2 / 5 : ℝ) - 0.5) / (2.0 - 0.5) * (76 - 1) = -5 := by norm_num
  rw [alpha_index, pyInt, h, if_neg (by norm_num)]
  rw [show ((-5 : ℝ)) = ((-5 : ℤ) : ℝ) by norm_num, Int.ceil_intCast]

theorem beta_index_zero : beta_index 0 = 50 := by
  have h : ((0 : ℝ) - (-1.0)) / (1.0 - (-1.0)) * (101 - 1) = 50 := by norm_num
  rw [beta_index, pyInt, h, if_pos (by norm_num)]
  rw [show ((50 : ℝ)) = ((50 : ℤ) : ℝ) by norm_num, Int.floor_intCast]

/-- C3 counterexample: `alpha = 2/5` is outside the supported domain
`(0.5, 2]`, yet `levy` completes without raising any error (its alpha index
`-5` silently wraps to row 71 of the breakpoint table), so the evaluator does
not reject out-of-range parameters explicitly. -/
theorem levy_no_validation_counterexample :
    (levy (fun _ => 0) (fun _ => 0) (fun _ _ => 1) [] (2 / 5) 0 0 1 false 0).isSome
      = true := by
  have hlook : breakpoint_lookup (fun _ _ => (1 : ℝ)) (2 / 5) 0 = some 1 := by
    rw [breakpoint_lookup, alpha_index_two_fifths, beta_index_zero, pyIndex2,
      if_pos (by omega)]
  simp [levy, hlook, change_par]

/-- C3 amended: the evaluator performs no explicit parameter validation before
the breakpoint-table lookup.  The lookup raises (an `IndexError`, re-raised
after a diagnostic print) exactly when a computed index falls outside the
Python-indexable range `[-size, size)`; an alpha/beta whose index is negative
but within range is looked up silently, wrapping to `index + size` from the
end of the table. -/
theorem breakpoint_lookup_no_validation (limits : ℕ → ℕ → ℝ) (alpha beta : ℝ) :
    (breakpoint_lookup limits alpha beta = none ↔
      alpha_index alpha < -76 ∨ 76 ≤ alpha_index alpha ∨
      beta_index beta < -101 ∨ 101 ≤ beta_index beta) ∧
    (-76 ≤ alpha_index alpha → alpha_index alpha < 0 →
      0 ≤ beta_index beta → beta_index beta < 101 →
      breakpoint_lookup limits alpha beta =
        some (limits (alpha_index alpha + 76).toNat (beta_index beta).toNat)) := by
  constructor
  · rw [breakpoint_lookup, pyIndex2]
    split_ifs with h
    · constructor
      · intro hcontra
        cases hcontra
      · intro hcontra
        exact absurd hcontra (by omega)
    · push_neg at h
      exact ⟨fun _ => by omega, fun _ => rfl⟩
  · intro h1 h2 h3 h4
    rw [breakpoint_lookup, pyIndex2]
    split_ifs with hcond hneg
    · exact absurd hneg (not_lt.2 h3)
    · norm_num
    · exact (hcond (by omega)).elim

/-- Witness for the amended C3 at alpha = 2/5 (index -5, wrapping to 71) and
beta = 0 (index 50). -/
theorem breakpoint_lookup_no_validation_witness :
    ((-76 : ℤ) ≤ alpha_index (2 / 5) ∧ alpha_index (2 / 5) < 0 ∧
      (0 : ℤ) ≤ beta_index 0 ∧ beta_index 0 < 101) ∧
    breakpoint_lookup (fun i j => (i : ℝ) + j) (2 / 5) 0 =
      some ((fun i j => (i : ℝ) + j) (alpha_index (2 / 5) + 76).toNat
        (beta_index 0).toNat) := by
  have ha := alpha_index_two_fifths
  have hb := beta_index_zero
  refine ⟨⟨by omega, by omega, by omega, by omega⟩, ?_⟩
  exact (breakpoint_lookup_no_validation (fun i j => (i : ℝ) + j) (2 / 5) 0).2
    (by omega) (by omega) (by omega) (by omega)

/-! ## Claim C9: negative log density floors the density at 1e-100 -/

/-- C9: `neglog_levy` is elementwise `-log(max(1e-100, density))` where
`density` is `levy` at the same arguments; every output is bounded above by
`-log(1e-100)` (never infinite), and any density at or below the floor —
including zero from underflow or a slightly negative interpolation overshoot —
produces exactly the finite value `-log(1e-100)`. -/
theorem neglog_levy_floor (pdfG cdfG : (Fin 3 → ℕ) → ℝ) (limits : ℕ → ℕ → ℝ)
    (x : List ℝ) (alpha beta mu sigma : ℝ) (par : ℤ) (vs : List ℝ)
    (h : neglog_levy pdfG cdfG limits x alpha beta mu sigma par = some vs) :
    (∃ ds, levy pdfG cdfG limits x alpha beta mu sigma false par = some ds ∧
      vs = ds.map fun v => -Real.log (max 1e-100 v)) ∧
    (∀ u ∈ vs, u ≤ -Real.log 1e-100) ∧
    (∀ d : ℝ, d ≤ 1e-100 → -Real.log (max 1e-100 d) = -Real.log 1e-100) := by
  rw [neglog_levy] at h
  obtain ⟨ds, hds, hvs⟩ := Option.map_eq_some'.1 h
  refine ⟨⟨ds, hds, hvs.symm⟩, ?_, fun d hd => by rw [max_eq_left hd]⟩
  intro u hu
  rw [← hvs] at hu
  obtain ⟨d, _, hud⟩ := List.mem_map.1 hu
  rw [← hud]
  have hpos : (0 : ℝ) < 1e-100 := by norm_num
  exact neg_le_neg (Real.log_le_log hpos (le_max_left _ _))

/-- Witness for C9 on the empty batch with constant grids. -/
theorem neglog_levy_floor_witness :
    neglog_levy (fun _ => 0) (fun _ => 0) (fun _ _ => 1) [] (3 / 2) 0 0 1 0 = some [] ∧
    ((∃ ds, levy (fun _ => 0) (fun _ => 0) (fun _ _ => 1) [] (3 / 2) 0 0 1 false 0 = some ds ∧
      ([] : List ℝ) = ds.map fun v => -Real.log (max 1e-100 v)) ∧
    (∀ u ∈ ([] : List ℝ), u ≤ -Real.log 1e-100) ∧
    (∀ d : ℝ, d ≤ 1e-100 → -Real.log (max 1e-100 d) = -Real.log 1e-100)) := by
  have hl : levy (fun _ => 0) (fun _ => 0) (fun _ _ => 1) [] (3 / 2) 0 0 1 false 0
      = some [] := by
    have hcp : change_par (3 / 2 : ℝ) 0 0 1 (0 : ℤ) 0 = some 0 := by simp [change_par]
    have hlook := breakpoint_lookup_domain (fun _ _ => (1 : ℝ)) (3 / 2) 0
      (by norm_num) (by norm_num) (by norm_num) (by norm_num)
    rw [levy, hcp, hlook, Option.some_bind, Option.map_some']
    rfl
  have hn : neglog_levy (fun _ => 0) (fun _ => 0) (fun _ _ => 1) [] (3 / 2) 0 0 1 0
      = some [] := by
    rw [neglog_levy, hl]
    rfl
  exact ⟨hn, neglog_levy_floor (fun _ => 0) (fun _ => 0) (fun _ _ => 1) [] (3 / 2) 0 0 1 0
    [] hn⟩

/-! ## Offline breakpoint search (`_int_levy`, `_get_closest_approx`,
source lines 248-272)

`np.linspace(x0, x1, num=n, endpoint=True)` has spacing `(x1 - x0)/(n - 1)`,
while the source computes `dx = (x1 - x0)/n` and returns `10.0 + dx * argmin`;
both are modelled exactly as written. -/

/-- `_int_levy` (source lines 248-262): interpolate the chosen grid at
`(arctan x, alpha, |beta|)`.  Note the absolute value on beta. -/
noncomputable def _int_levy (pdfG cdfG : (Fin 3 → ℕ) → ℝ) (x alpha beta : ℝ)
    (cdf : Bool) : ℝ :=
  interpolate shape3 (if cdf then cdfG else pdfG) lower3 upper3
    ![Real.arctan x, alpha, |beta|]

/-- Minimum of a list of reals (0 for the empty list). -/
noncomputable def listMin : List ℝ → ℝ
  | [] => 0
  | [a] => a
  | a :: b :: r => min a (listMin (b :: r))

/-- `np.argmin`: index of the first occurrence of the minimum (0 on empty). -/
noncomputable def argminIdx : List ℝ → ℕ
  | [] => 0
  | [_] => 0
  | a :: b :: r => if a ≤ listMin (b :: r) then 0 else argminIdx (b :: r) + 1

theorem argminIdx_lt : ∀ l : List ℝ, l ≠ [] → argminIdx l < l.length
  | [], h => absurd rfl h
  | [_], _ => by simp [argminIdx]
  | _ :: b :: r, _ => by
    rw [argminIdx]
    split_ifs
    · simp
    · have h := argminIdx_lt (b :: r) (by simp)
      simpa using Nat.succ_lt_succ h

theorem listMin_le : ∀ (l : List ℝ) (j : ℕ), j < l.length → listMin l ≤ l.getD j 0
  | [], j, h => absurd h (by simp)
  | [a], 0, _ => by simp [listMin]
  | [a], j + 1, h => by simp at h
  | a :: b :: r, 0, _ => by
    rw [listMin]
    simpa using min_le_left a (listMin (b :: r))
  | a :: b :: r, j + 1, h => by
    rw [listMin, List.getD_cons_succ]
    refine le_trans (min_le_right _ _) ?_
    exact listMin_le (b :: r) j (by simpa using h)

theorem argmin_getD : ∀ l : List ℝ, l ≠ [] → l.getD (argminIdx l) 0 = listMin l
  | [], h => absurd rfl h
  | [a], _ => by simp [argminIdx, listMin]
  | a :: b :: r, _ => by
    rw [argminIdx, listMin]
    split_ifs with hle
    · simp [min_eq_left hle]
    · push_neg at hle
      rw [List.getD_cons_succ, argmin_getD (b :: r) (by simp), min_eq_right hle.le]

theorem argmin_min (l : List ℝ) (j : ℕ) (hj : j < l.length) :
    l.getD (argminIdx l) 0 ≤ l.getD j 0 := by
  have hne : l ≠ [] := by
    intro h
    subst h
    simp at hj
  rw [argmin_getD l hne]
  exact listMin_le l j hj

/-- The i-th point of `np.linspace(-50.0, 10000.0 - 50.0, num=100000,
endpoint=True)` (spacing `(x1 - x0)/(n - 1)`). -/
noncomputable def scanX (i : ℕ) : ℝ :=
  -50.0 + (i : ℝ) * (((10000.0 - 50.0) - (-50.0)) / (100000 - 1))

/-- The scan indices selected by `mask = (10.0 < x) & (x < 500.0)`. -/
noncomputable def scanMask : List ℕ :=
  (List.range 100000).filter fun i => pbool (10.0 < scanX i) && pbool (scanX i < 500.0)

/-- `(log z - log y)^2` at scan point `i`, with `z = 1 - _approximate(x,
cdf=True)` and `y = 1 - _int_levy(x, cdf=True)`. -/
noncomputable def scanLoss (pdfG cdfG : (Fin 3 → ℕ) → ℝ) (alpha beta : ℝ) (i : ℕ) : ℝ :=
  (Real.log (1.0 - _approximate (scanX i) alpha beta true) -
    Real.log (1.0 - _int_levy pdfG cdfG (scanX i) alpha beta true)) ^ 2

/-- The masked loss vector `(np.log(z[mask]) - np.log(y[mask])) ** 2.0`. -/
noncomputable def lossList (pdfG cdfG : (Fin 3 → ℕ) → ℝ) (alpha beta : ℝ) : List ℝ :=
  scanMask.map (scanLoss pdfG cdfG alpha beta)

/-- `_get_closest_approx` (source lines 265-272): `10.0 + dx * argmin(...)`
with `dx = (x1 - x0)/n = 10000/100000`. -/
noncomputable def _get_closest_approx (pdfG cdfG : (Fin 3 → ℕ) → ℝ)
    (alpha beta : ℝ) : ℝ :=
  10.0 + (((10000.0 - 50.0) - (-50.0)) / 100000) *
    (argminIdx (lossList pdfG cdfG alpha beta) : ℝ)

theorem scanX_window (i : ℕ) : (10.0 < scanX i ∧ scanX i < 500.0) ↔ (600 ≤ i ∧ i < 5500) := by
  have h99 : (0 : ℝ) < 99999 := by norm_num
  have hform : scanX i = -50 + (i : ℝ) * 10000 / 99999 := by
    rw [scanX]
    norm_num
    ring
  rw [hform]
  constructor
  · rintro ⟨h10, h500⟩
    have ha : (60 : ℝ) < (i : ℝ) * 10000 / 99999 := by linarith
    have hb : (i : ℝ) * 10000 / 99999 < 550 := by linarith
    rw [lt_div_iff h99] at ha
    rw [div_lt_iff h99] at hb
    have ha' : (5999940 : ℝ) < (i : ℝ) * 10000 := by linarith
    have hb' : (i : ℝ) * 10000 < 54999450 := by linarith
    have ha2 : (5999940 : ℕ) < i * 10000 := by exact_mod_cast ha'
    have hb2 : i * 10000 < 54999450 := by exact_mod_cast hb'
    omega
  · rintro ⟨h6, h55⟩
    have h6' : (600 : ℝ) ≤ (i : ℝ) := by exact_mod_cast h6
    have h55' : (i : ℝ) ≤ 5499 := by exact_mod_cast Nat.lt_succ_iff.mp h55
    constructor
    · have h : (60 : ℝ) < (i : ℝ) * 10000 / 99999 := by
        rw [lt_div_iff h99]
        nlinarith
      linarith
    · have h : (i : ℝ) * 10000 / 99999 < 550 := by
        rw [div_lt_iff h99]
        nlinarith
      linarith

theorem filter_range_window (p : ℕ → Bool) (a b N : ℕ)
    (hab : a ≤ b) (hbN : b ≤ N) (hp : ∀ i, p i = true ↔ (a ≤ i ∧ i < b)) :
    (List.range N).filter p = List.range' a (b - a) := by
  have hsplit1 : List.range' 0 a ++ List.range' a (N - a) = List.range' 0 N := by
    have h := List.range'_append_1 0 a (N - a)
    rwa [Nat.zero_add, show N - a + a = N by omega] at h
  have hsplit2 : List.range' a (b - a) ++ List.range' b (N - b) = List.range' a (N - a) := by
    have h := List.range'_append_1 a (b - a) (N - b)
    rwa [show a + (b - a) = b by omega, show N - b + (b - a) = N - a by omega] at h
  rw [List.range_eq_range', ← hsplit1, ← hsplit2, List.filter_append, List.filter_append]
  have h1 : (List.range' 0 a).filter p = [] := by
    rw [List.filter_eq_nil_iff]
    intro i hi
    rw [List.mem_range'] at hi
    obtain ⟨k, hk, rfl⟩ := hi
    rw [hp]
    omega
  have h3 : (List.range' b (N - b)).filter p = [] := by
    rw [List.filter_eq_nil_iff]
    intro i hi
    rw [List.mem_range'] at hi
    obtain ⟨k, hk, rfl⟩ := hi
    rw [hp]
    omega
  have h2 : (List.range' a (b - a)).filter p = List.range' a (b - a) := by
    rw [List.filter_eq_self]
    intro i hi
    rw [List.mem_range'] at hi
    obtain ⟨k, hk, rfl⟩ := hi
    rw [hp]
    omega
  rw [h1, h2, h3, List.nil_append, List.append_nil]

theorem scanMask_eq : scanMask = List.range' 600 4900 := by
  rw [scanMask]
  have h := filter_range_window
    (fun i => pbool (10.0 < scanX i) && pbool (scanX i < 500.0))
    600 5500 100000 (by norm_num) (by norm_num) ?_
  · simpa using h
  · intro i
    rw [Bool.and_eq_true, pbool_iff, pbool_iff]
    exact scanX_window i

theorem scanMask_getD (m : ℕ) (hm : m < 4900) : scanMask.getD m 0 = 600 + m := by
  rw [scanMask_eq]
  have hlen : m < (List.range' 600 4900).length := by
    rw [List.length_range']
    exact hm
  rw [List.getD_eq_getElem?_getD, List.getElem?_eq_getElem hlen, List.getElem_range']
  simp

/-- The value the source stores, `10.0 + dx * m` with `dx = 10000/100000`,
never equals the scanned point `scanX (600 + m)` whose loss was minimized:
equality would force `m = -600`. -/
theorem stored_ne_scan (m : ℕ) :
    10.0 + (((10000.0 - 50.0) - (-50.0)) / 100000) * (m : ℝ) ≠ scanX (600 + m) := by
  intro hcontra
  rw [scanX] at hcontra
  push_cast at hcontra
  have hm : (0 : ℝ) ≤ (m : ℝ) := Nat.cast_nonneg m
  nlinarith [hcontra]

theorem lossList_length (pdfG cdfG : (Fin 3 → ℕ) → ℝ) (alpha beta : ℝ) :
    (lossList pdfG cdfG alpha beta).length = 4900 := by
  rw [lossList, List.length_map, scanMask_eq, List.length_range']

theorem closest_approx_ne_minimizing (pdfG cdfG : (Fin 3 → ℕ) → ℝ) (alpha beta : ℝ) :
    _get_closest_approx pdfG cdfG alpha beta ≠
      scanX (600 + argminIdx (lossList pdfG cdfG alpha beta)) := by
  rw [_get_closest_approx]
  exact stored_ne_scan _

/-- C6 counterexample: at the concrete input (zero grids, alpha = 3/2,
beta = 0) the stored breakpoint is not the scanned x whose squared
log-difference is minimal: the code returns `10.0 + dx * argmin` with
`dx = (x1-x0)/n = 0.1`, while the scanned points have spacing
`(x1-x0)/(n-1)` and the masked sub-range starts at `scanX 600 ≈ 10.0006`,
not at 10.0. -/
theorem get_closest_approx_counterexample :
    _get_closest_approx (fun _ => 0) (fun _ => 0) (3 / 2) 0 ≠
      scanX (scanMask.getD (argminIdx (lossList (fun _ => 0) (fun _ => 0) (3 / 2) 0)) 0) := by
  have hlt : argminIdx (lossList (fun _ => 0) (fun _ => 0) (3 / 2) 0) < 4900 := by
    have hne : lossList (fun _ => 0) (fun _ => 0) (3 / 2) 0 ≠ [] := by
      intro h
      have := lossList_length (fun _ => 0) (fun _ => 0) (3 / 2) 0
      rw [h] at this
      simp at this
    have h := argminIdx_lt _ hne
    rwa [lossList_length] at h
  rw [scanMask_getD _ hlt]
  exact closest_approx_ne_minimizing (fun _ => 0) (fun _ => 0) (3 / 2) 0

/-- C6 amended: for every grid pair and (alpha, beta), the offline breakpoint
search scans `np.linspace(-50, 9950, 100000)` (a dense uniform range starting
from a small negative value), masks the sub-range `10 < x < 500` (scan indices
600 to 5499, 4900 points), and minimizes the squared difference of the natural
logs of the grid-interpolated and closed-form complementary CDFs over that
sub-range; but the value it stores is `10.0 + (x1-x0)/n * argmin`, an
approximation that never exactly equals the minimizing scanned x (the scan
spacing is `(x1-x0)/(n-1)` and the masked sub-range starts at `scanX 600`,
slightly above 10). -/
theorem get_closest_approx_spec (pdfG cdfG : (Fin 3 → ℕ) → ℝ) (alpha beta : ℝ) :
    (lossList pdfG cdfG alpha beta).length = 4900 ∧
    argminIdx (lossList pdfG cdfG alpha beta) < 4900 ∧
    _get_closest_approx pdfG cdfG alpha beta =
      10.0 + (1 / 10) * (argminIdx (lossList pdfG cdfG alpha beta) : ℝ) ∧
    (∀ j, j < 4900 →
      (lossList pdfG cdfG alpha beta).getD (argminIdx (lossList pdfG cdfG alpha beta)) 0 ≤
        (lossList pdfG cdfG alpha beta).getD j 0) ∧
    scanMask.getD (argminIdx (lossList pdfG cdfG alpha beta)) 0 =
      600 + argminIdx (lossList pdfG cdfG alpha beta) ∧
    _get_closest_approx pdfG cdfG alpha beta ≠
      scanX (600 + argminIdx (lossList pdfG cdfG alpha beta)) := by
  have hlen := lossList_length pdfG cdfG alpha beta
  have hne : lossList pdfG cdfG alpha beta ≠ [] := by
    intro h
    rw [h] at hlen
    simp at hlen
  have hlt : argminIdx (lossList pdfG cdfG alpha beta) < 4900 := by
    have h := argminIdx_lt _ hne
    rwa [hlen] at h
  refine ⟨hlen, hlt, ?_, ?_, scanMask_getD _ hlt, closest_approx_ne_minimizing pdfG cdfG alpha beta⟩
  · rw [_get_closest_approx]
    norm_num
  · intro j hj
    exact argmin_min _ j (by rwa [hlen])

/-- Witness for the amended C6 at the zero grids and alpha = 3/2, beta = 0:
the stored value is `10 + argmin/10` and the argmin position minimizes the
masked losses. -/
theorem get_closest_approx_spec_witness :
    _get_closest_approx (fun _ => 0) (fun _ => 0) (3 / 2) 0 =
      10.0 + (1 / 10) * (argminIdx (lossList (fun _ => 0) (fun _ => 0) (3 / 2) 0) : ℝ) ∧
    (∀ j, j < 4900 →
      (lossList (fun _ => 0) (fun _ => 0) (3 / 2) 0).getD
          (argminIdx (lossList (fun _ => 0) (fun _ => 0) (3 / 2) 0)) 0 ≤
        (lossList (fun _ => 0) (fun _ => 0) (3 / 2) 0).getD j 0) := by
  have h := get_closest_approx_spec (fun _ => 0) (fun _ => 0) (3 / 2) 0
  exact ⟨h.2.2.1, h.2.2.2.1⟩

/-! ## ParameterSpace and MLE fit (`_reflect`, `Parameters`, `fit_levy`,
source lines 90-98, 138-167, 360-405)

The optimizer (`scipy.optimize.minimize`) is external: its returned solution
vector is modelled as an arbitrary function `cand : ℕ → ℝ` giving the value
for each free slot, in the order of the free-slot list.  The `while` loop of
`_reflect` is modelled with an explicit fuel argument counting loop
iterations (the source loop terminates whenever `lower < upper`); no claim
depends on the reflected value. -/

/-- `_reflect(x, lower, upper)`: mirror `x` at the exceeded bound until it
lies inside `[lower, upper]`; `fuel` bounds the number of loop iterations. -/
noncomputable def _reflect : ℕ → ℝ → ℝ → ℝ → ℝ
  | 0, x, _, _ => x
  | fuel + 1, x, lower, upper =>
    if x < lower then _reflect fuel (lower - (x - lower)) lower upper
    else if x > upper then _reflect fuel (upper - (x - upper)) lower upper
    else x

/-- `f_bounds`: per-slot boundary function; alpha reflects into [0.5, 2],
beta into [-1, 1], mu passes through, sigma reflects into [1e-6, 1e10]
(`par_bounds`, source lines 50-60). -/
noncomputable def f_bounds_app (fuel : ℕ) (i : Fin 4) (x : ℝ) : ℝ :=
  if i.val = 0 then _reflect fuel x 0.5 2.0
  else if i.val = 1 then _reflect fuel x (-1.0) 1.0
  else if i.val = 2 then x
  else _reflect fuel x 1e-6 1e10

/-- `default = [1.5, 0.0, 0.0, 1.0]` (source lines 52-53). -/
noncomputable def defaultPar : Fin 4 → ℝ := ![1.5, 0.0, 0.0, 1.0]

/-- `Parameters.__init__`: full vector, defaults in the free slots
(`default[k] if kwargs[k] is None else kwargs[k]`). -/
noncomputable def initX (kw : Fin 4 → Option ℝ) (i : Fin 4) : ℝ :=
  (kw i).getD (defaultPar i)

/-- Position of free slot `i` in the ordered list `variables` of free slots:
the number of free slots strictly before `i`. -/
def freeRank (kw : Fin 4 → Option ℝ) (i : Fin 4) : ℕ :=
  ((List.finRange 4).take i.val).countP fun j => (kw j).isNone

/-- The `Parameters.x` setter: each free slot `i` receives the optimizer's
value for its position in `variables`, passed through that slot's boundary
function; fixed slots are left untouched. -/
noncomputable def applyCand (fuel : ℕ) (kw : Fin 4 → Option ℝ) (x0 : Fin 4 → ℝ)
    (cand : ℕ → ℝ) (i : Fin 4) : ℝ :=
  if (kw i).isNone then f_bounds_app fuel i (cand (freeRank kw i)) else x0 i

/-- The conversion of a fixed `mu` to the canonical parametrization at entry
of `fit_levy` (source lines 385-388): `loc = change_par(alpha, beta, mu,
sigma, par, 0)` evaluated with the raw keyword arguments, which may be `None`.
`none` models the `TypeError` crash when `par = 1` and any of alpha, beta,
sigma is free; `some none` means `loc = None` (mu stays free). -/
noncomputable def fitLoc (alpha beta mu sigma : Option ℝ) (par : ℤ) :
    Option (Option ℝ) :=
  match mu with
  | none => some none
  | some m =>
    if par = 0 then some (some m)
    else if par = 1 then
      match alpha, beta, sigma with
      | some a, some b, some s => some (some (m + s * _phi a b))
      | _, _, _ => none
    else some none

/-- The fitted tuple `(alpha, beta, mu, sigma, neglog_density(parameters.x))`
returned by `fit_levy`; `mu` is `Option` because `change_par` back to the
requested parametrization returns `None` for `par` outside {0, 1}. -/
structure FitResult where
  alpha : ℝ
  beta : ℝ
  mu : Option ℝ
  sigma : ℝ
  neglog : ℝ

/-- `neglog_density(param)`: the sum over the data of `neglog_levy` at the
full parameter vector (canonical parametrization). -/
noncomputable def objectiveAt (pdfG cdfG : (Fin 3 → ℕ) → ℝ) (limits : ℕ → ℕ → ℝ)
    (data : List ℝ) (p : Fin 4 → ℝ) : Option ℝ :=
  (neglog_levy pdfG cdfG limits data (p 0) (p 1) (p 2) (p 3) 0).map List.sum

/-- `fit_levy(x, alpha, beta, mu, sigma, par)` with the optimizer's solution
vector abstracted as `cand`: convert a fixed `mu` to canonical
parametrization, build the `Parameters` object, write the solution back
through the setter, convert the fitted location back to `par`, and return the
tuple together with the objective at the solution. -/
noncomputable def fit_levy (fuel : ℕ) (pdfG cdfG : (Fin 3 → ℕ) → ℝ)
    (limits : ℕ → ℕ → ℝ) (data : List ℝ) (alpha beta mu sigma : Option ℝ)
    (par : ℤ) (cand : ℕ → ℝ) : Option FitResult :=
  (fitLoc alpha beta mu sigma par).bind fun loc =>
  let kw : Fin 4 → Option ℝ := ![alpha, beta, loc, sigma]
  let xf := applyCand fuel kw (initX kw) cand
  (objectiveAt pdfG cdfG limits data xf).map fun obj =>
  { alpha := xf 0, beta := xf 1, mu := change_par (xf 0) (xf 1) (xf 2) (xf 3) 0 par,
    sigma := xf 3, neglog := obj }

theorem applyCand_fixed (fuel : ℕ) (kw : Fin 4 → Option ℝ) (cand : ℕ → ℝ)
    (i : Fin 4) (v : ℝ) (hv : kw i = some v) :
    applyCand fuel kw (initX kw) cand i = v := by
  rw [applyCand, initX, hv]
  simp

/-- C8: in every fit call that returns a result, the slots of
{alpha, beta, mu, sigma} fixed to literal values are carried through to the
returned tuple exactly unchanged, whatever the sample data and whatever vector
the optimizer produces, because the candidate writes touch only the free
slots (and the entry/exit parametrization conversions of a fixed `mu` cancel
exactly).  In particular a fit with beta fixed to 0 always returns beta = 0. -/
theorem fit_levy_fixed_frame (fuel : ℕ) (pdfG cdfG : (Fin 3 → ℕ) → ℝ)
    (limits : ℕ → ℕ → ℝ) (data : List ℝ) (alpha beta mu sigma : Option ℝ)
    (par : ℤ) (cand : ℕ → ℝ) (r : FitResult)
    (hpar : par = 0 ∨ par = 1)
    (h : fit_levy fuel pdfG cdfG limits data alpha beta mu sigma par cand = some r) :
    (∀ a, alpha = some a → r.alpha = a) ∧
    (∀ b, beta = some b → r.beta = b) ∧
    (∀ s, sigma = some s → r.sigma = s) ∧
    (∀ m, mu = some m → r.mu = some m) := by
  rw [fit_levy] at h
  obtain ⟨loc, hloc, hrest⟩ := Option.bind_eq_some.1 h
  simp only [Option.map_eq_some'] at hrest
  obtain ⟨obj, hobj, hr⟩ := hrest
  refine ⟨?_, ?_, ?_, ?_⟩
  · intro a ha
    rw [← hr]
    exact applyCand_fixed fuel ![alpha, beta, loc, sigma] cand 0 a (by simp [ha])
  · intro b hb
    rw [← hr]
    exact applyCand_fixed fuel ![alpha, beta, loc, sigma] cand 1 b (by simp [hb])
  · intro s hs
    rw [← hr]
    exact applyCand_fixed fuel ![alpha, beta, loc, sigma] cand 3 s (by simp [hs])
  · intro m hm
    subst hm
    rcases hpar with hp | hp <;> subst hp
    · have hlocv : loc = some m := by
        simp [fitLoc] at hloc
        exact hloc.symm
      subst hlocv
      have hC := applyCand_fixed fuel ![alpha, beta, some m, sigma] cand 2 m (by simp)
      rw [← hr]
      simp [change_par, hC]
    · rcases alpha with _ | a <;> rcases beta with _ | b <;> rcases sigma with _ | s <;>
        simp [fitLoc] at hloc
      subst hloc
      have h0 := applyCand_fixed fuel ![some a, some b, some (m + s * _phi a b), some s]
        cand 0 a (by simp)
      have h1 := applyCand_fixed fuel ![some a, some b, some (m + s * _phi a b), some s]
        cand 1 b (by simp)
      have h2 := applyCand_fixed fuel ![some a, some b, some (m + s * _phi a b), some s]
        cand 2 (m + s * _phi a b) (by simp)
      have h3 := applyCand_fixed fuel ![some a, some b, some (m + s * _phi a b), some s]
        cand 3 s (by simp)
      rw [← hr]
      show change_par _ _ _ _ 0 1 = some m
      rw [change_par, if_neg (by norm_num), if_pos (by norm_num), h0, h1, h2, h3]
      congr 1
      ring

theorem interpolate_zero {d : ℕ} (shape : Fin d → ℕ) (lower upper pt : Fin d → ℝ) :
    interpolate shape (fun _ => 0) lower upper pt = 0 := by
  simp [interpolate]

/-- Witness for C8: a concrete fit on data [1] with beta fixed to 0 and all
other parameters free, canonical parametrization, optimizer returning 1 for
every free slot; the returned tuple has beta = 0 exactly. -/
theorem fit_levy_fixed_frame_witness :
    fit_levy 0 (fun _ => 0) (fun _ => 0) (fun _ _ => 1) [1] none (some 0) none none 0
        (fun _ => 1) =
      some ⟨1, 0, some 1, 1, -Real.log 1e-100⟩ ∧
    (⟨1, 0, some 1, 1, -Real.log 1e-100⟩ : FitResult).beta = 0 := by
  have hlook : breakpoint_lookup (fun _ _ => (1 : ℝ)) 1 0 = some 1 :=
    breakpoint_lookup_domain (fun _ _ => 1) 1 0 (by norm_num) (by norm_num)
      (by norm_num) (by norm_num)
  have hcp : change_par 1 0 1 1 (0 : ℤ) 0 = some 1 := by simp [change_par]
  have hnear : pbool (|((1 : ℝ) - 1) / 1| < 1) = true := pbool_eq_true (by norm_num)
  have hlevy : levy (fun _ => 0) (fun _ => 0) (fun _ _ => 1) [1] 1 0 1 1 false 0
      = some [0] := by
    rw [levy, hcp, hlook, Option.some_bind, Option.map_some']
    congr 1
    simp only [List.map_cons, List.map_nil, List.filter, hnear, Bool.not_true,
      Bool.false_eq_true, if_false]
    rw [interpolate_zero]
    simp [unmask]
  have hneg : neglog_levy (fun _ => 0) (fun _ => 0) (fun _ _ => 1) [1] 1 0 1 1 0
      = some [-Real.log 1e-100] := by
    rw [neglog_levy, hlevy, Option.map_some']
    congr 1
    rw [List.map_cons, List.map_nil, max_eq_left (by norm_num : (0 : ℝ) ≤ 1e-100)]
  have h0 : applyCand 0 (![none, some 0, none, none] : Fin 4 → Option ℝ)
      (initX ![none, some 0, none, none]) (fun _ => 1) 0 = 1 := rfl
  have h1 : applyCand 0 (![none, some 0, none, none] : Fin 4 → Option ℝ)
      (initX ![none, some 0, none, none]) (fun _ => 1) 1 = 0 := rfl
  have h2 : applyCand 0 (![none, some 0, none, none] : Fin 4 → Option ℝ)
      (initX ![none, some 0, none, none]) (fun _ => 1) 2 = 1 := rfl
  have h3 : applyCand 0 (![none, some 0, none, none] : Fin 4 → Option ℝ)
      (initX ![none, some 0, none, none]) (fun _ => 1) 3 = 1 := rfl
  have hobj : objectiveAt (fun _ => 0) (fun _ => 0) (fun _ _ => 1) [1]
      (applyCand 0 (![none, some 0, none, none] : Fin 4 → Option ℝ)
        (initX ![none, some 0, none, none]) (fun _ => 1)) = some (-Real.log 1e-100) := by
    rw [objectiveAt, h0, h1, h2, h3, hneg, Option.map_some']
    simp
  have hfl : fitLoc none (some 0) none none 0 = some none := rfl
  have hfit : fit_levy 0 (fun _ => 0) (fun _ => 0) (fun _ _ => 1) [1] none (some 0) none
      none 0 (fun _ => 1) = some ⟨1, 0, some 1, 1, -Real.log 1e-100⟩ := by
    rw [fit_levy]
    simp only [hfl, Option.some_bind]
    rw [hobj, Option.map_some']
    rfl
  refine ⟨hfit, ?_⟩
  exact (fit_levy_fixed_frame 0 (fun _ => 0) (fun _ => 0) (fun _ _ => 1) [1] none (some 0)
    none none 0 (fun _ => 1) _ (Or.inl rfl) hfit).2.1 0 rfl

/-! ## RandomSampler (`random`, source lines 408-440)

The random draws are modelled as explicit inputs: `gauss` is the standard
normal draw `np.random.standard_normal(shape)` and `r1`, `r2` the two uniform
draws (one output element).  `loc` is computed before the `alpha == 2` check
but never used on that branch; for `par` outside {0, 1} it is `None`, which
crashes (`none`) only if the general branch is reached. -/

/-- `random(alpha, beta, mu, sigma, shape, par)` for one output element. -/
noncomputable def random (alpha beta mu sigma : ℝ) (par : ℤ)
    (gauss r1 r2 : ℝ) : Option ℝ :=
  let loc := change_par alpha beta mu sigma par 0
  if alpha = 2 then some (gauss * Real.sqrt 2.0)
  else
    let alpha1 := if |alpha - 1.0| < 1e-15 then 1.0 + 1e-15 else alpha
    loc.map fun l =>
      let a := 1.0 - alpha1
      let b := r1 - 0.5
      let c := a * b * Real.pi
      let e := _phi alpha1 beta
      let f := (-(Real.cos c + e * Real.sin c) /
        (Real.log r2 * Real.cos (b * Real.pi))) ^ (a / alpha1)
      let g := Real.tan (Real.pi * b / 2.0)
      let h := Real.tan (c / 2.0)
      let i := 1.0 - g ^ (2.0 : ℝ)
      let j := f * (2.0 * (g - h) * (g * h + 1.0) - (h * i - 2.0 * g) * e * 2.0 * h)
      let k := j / (i * (h ^ (2.0 : ℝ) + 1.0)) + e * (f - 1.0)
      l + sigma * k

/-- C10: for `alpha = 2` the sampler returns exactly the standard normal draw
times `sqrt 2`: the computed location `loc` is never added and `sigma` never
multiplied on this branch, so the output is independent of beta, mu, sigma
and par (even a `par` outside {0, 1}, whose `loc` would be `None`, does not
crash this branch). -/
theorem random_alpha_two (beta mu sigma : ℝ) (par : ℤ) (gauss r1 r2 : ℝ) :
    random 2 beta mu sigma par gauss r1 r2 = some (gauss * Real.sqrt 2) ∧
    random 2 beta mu sigma par gauss r1 r2 = random 2 0 0 1 0 gauss r1 r2 := by
  constructor
  · simp only [random, if_pos rfl]
    norm_num
  · simp [random]
